import Mathlib

/-!
Verification development for the Dailies-Bot recurring-chore scheduler.

The Python source (dailies/chore.py, dailies/command.py, dailies/bot.py,
dailies/util.py) is shallowly embedded below:

* calendar dates are records of integer year/month/day in the proleptic
  Gregorian calendar, with `toRD` the day-numbering used by Python's
  `date.toordinal` (so `toRD ⟨1,1,1⟩ = 1`);
* `datetime.timedelta` addition on dates is embedded as `addDays`, a
  day-by-day successor/predecessor walk whose agreement with `toRD`
  is proved (`toRD_addDays`);
* Python dicts become association lists with dict-style insert/erase;
* code that can raise becomes `Except`/`Option`-valued functions;
* the process clock (`datetime.datetime.now()`) becomes an explicit
  `now` argument.
-/

namespace Dailies

/-- Proleptic-Gregorian leap-year test, as used by Python's
`calendar.isleap` / `calendar.monthrange`. -/
def isLeap (y : Int) : Bool :=
  (y % 4 == 0 && y % 100 != 0) || y % 400 == 0

/-- Number of days of month `m` (1-12) of year `y`, as returned in the
second component of Python's `calendar.monthrange`.  Months outside 1-12
(for which `monthrange` raises) are mapped to 0. -/
def daysInMonth (y m : Int) : Int :=
  if m = 1 then 31
  else if m = 2 then (if isLeap y then 29 else 28)
  else if m = 3 then 31
  else if m = 4 then 30
  else if m = 5 then 31
  else if m = 6 then 30
  else if m = 7 then 31
  else if m = 8 then 31
  else if m = 9 then 30
  else if m = 10 then 31
  else if m = 11 then 30
  else if m = 12 then 31
  else 0

/-- A calendar date, as Python's `datetime.date` (year bounds are not
imposed; the embedding works in the unbounded proleptic calendar). -/
structure Date where
  year : Int
  month : Int
  day : Int
deriving DecidableEq, Repr

/-- Validity of a date: the constraint `datetime.date` enforces on
month and day. -/
def Date.Valid (d : Date) : Prop :=
  1 ≤ d.month ∧ d.month ≤ 12 ∧ 1 ≤ d.day ∧ d.day ≤ daysInMonth d.year d.month

instance (d : Date) : Decidable d.Valid := by
  unfold Date.Valid; infer_instance

/-- Days contained in months `1..n` of year `y` (helper for `toRD`). -/
def daysBeforeMonthAux (y : Int) : Nat → Int
  | 0 => 0
  | n + 1 => daysBeforeMonthAux y n + daysInMonth y (n + 1)

/-- Days of year `y` that precede month `m`. -/
def daysBeforeMonth (y m : Int) : Int :=
  daysBeforeMonthAux y (m - 1).toNat

/-- Days in years `1 .. y-1`: Python `datetime._days_before_year`. -/
def daysBeforeYear (y : Int) : Int :=
  365 * (y - 1) + (y - 1) / 4 - (y - 1) / 100 + (y - 1) / 400

/-- The proleptic-Gregorian ordinal of a date: Python `date.toordinal`
(day 1 is January 1 of year 1). -/
def toRD (d : Date) : Int :=
  daysBeforeYear d.year + daysBeforeMonth d.year d.month + d.day

/-- `(a - b).days` for Python dates. -/
def dateSub (a b : Date) : Int := toRD a - toRD b

/-- `date.weekday()`: 0 = Monday .. 6 = Sunday. -/
def pyWeekday (d : Date) : Int := (toRD d + 6) % 7

/-- The day after `d` (embeds `d + timedelta(days=1)`). -/
def succDay (d : Date) : Date :=
  if d.day < daysInMonth d.year d.month then ⟨d.year, d.month, d.day + 1⟩
  else if d.month < 12 then ⟨d.year, d.month + 1, 1⟩
  else ⟨d.year + 1, 1, 1⟩

/-- The day before `d` (embeds `d - timedelta(days=1)`). -/
def predDay (d : Date) : Date :=
  if 1 < d.day then ⟨d.year, d.month, d.day - 1⟩
  else if 1 < d.month then ⟨d.year, d.month - 1, daysInMonth d.year (d.month - 1)⟩
  else ⟨d.year - 1, 12, 31⟩

/-- `d + timedelta(days=k)` for a natural `k`. -/
def addDaysNat (d : Date) : Nat → Date
  | 0 => d
  | n + 1 => succDay (addDaysNat d n)

/-- `d - timedelta(days=k)` for a natural `k`. -/
def subDaysNat (d : Date) : Nat → Date
  | 0 => d
  | n + 1 => predDay (subDaysNat d n)

/-- `d + timedelta(days=k)` for a (possibly negative) integer `k`. -/
def addDays (d : Date) (k : Int) : Date :=
  if 0 ≤ k then addDaysNat d k.toNat else subDaysNat d (-k).toNat

lemma daysInMonth_bounds {y m : Int} (h1 : 1 ≤ m) (h2 : m ≤ 12) :
    28 ≤ daysInMonth y m ∧ daysInMonth y m ≤ 31 := by
  unfold daysInMonth
  interval_cases m <;> simp <;> cases isLeap y <;> simp <;> omega

lemma succDay_valid {d : Date} (h : d.Valid) : (succDay d).Valid := by
  obtain ⟨h1, h2, h3, h4⟩ := h
  unfold succDay
  split
  · exact ⟨h1, h2, by dsimp only; omega, by dsimp only; omega⟩
  · split
    · have := daysInMonth_bounds (y := d.year) (m := d.month + 1) (by omega) (by omega)
      exact ⟨by dsimp only; omega, by dsimp only; omega, by dsimp only; omega,
        by dsimp only; omega⟩
    · have := daysInMonth_bounds (y := d.year + 1) (m := 1) (by omega) (by omega)
      exact ⟨by dsimp only; omega, by dsimp only; omega, by dsimp only; omega,
        by dsimp only; omega⟩

lemma predDay_valid {d : Date} (h : d.Valid) : (predDay d).Valid := by
  obtain ⟨h1, h2, h3, h4⟩ := h
  unfold predDay
  split
  · exact ⟨h1, h2, by dsimp only; omega, by dsimp only; omega⟩
  · split
    · have := daysInMonth_bounds (y := d.year) (m := d.month - 1) (by omega) (by omega)
      exact ⟨by dsimp only; omega, by dsimp only; omega, by dsimp only; omega,
        by dsimp only; omega⟩
    · have := daysInMonth_bounds (y := d.year - 1) (m := 12) (by omega) (by omega)
      refine ⟨by dsimp only; omega, by dsimp only; omega, by dsimp only; omega, ?_⟩
      show (31 : Int) ≤ daysInMonth (d.year - 1) 12
      simp [daysInMonth]

lemma isLeap_iff (y : Int) :
    isLeap y = true ↔ ((y % 4 = 0 ∧ ¬y % 100 = 0) ∨ y % 400 = 0) := by
  simp [isLeap]

lemma daysBeforeYear_succ (y : Int) :
    daysBeforeYear (y + 1) = daysBeforeYear y + 365 + (if isLeap y then 1 else 0) := by
  have i1 : y % 100 = 0 → y % 4 = 0 := by
    intro h
    have := Int.emod_emod_of_dvd y (by norm_num : (4 : Int) ∣ 100)
    omega
  have i2 : y % 400 = 0 → y % 100 = 0 := by
    intro h
    have := Int.emod_emod_of_dvd y (by norm_num : (100 : Int) ∣ 400)
    omega
  unfold daysBeforeYear
  simp only [add_sub_cancel_right]
  rcases Classical.em (y % 400 = 0) with h400 | h400 <;>
      rcases Classical.em (y % 100 = 0) with h100 | h100 <;>
        rcases Classical.em (y % 4 = 0) with h4 | h4
  all_goals first
    | exact absurd (i2 h400) h100
    | exact absurd (i1 h100) h4
    | (have hb : isLeap y = true := (isLeap_iff y).mpr (by tauto)
       rw [if_pos hb]; omega)
    | (have hb : ¬isLeap y = true := by rw [isLeap_iff]; tauto
       rw [if_neg hb]; omega)

lemma daysBeforeMonthAux_year_total (y : Int) :
    daysBeforeMonthAux y 12 = 365 + (if isLeap y then 1 else 0) := by
  simp only [daysBeforeMonthAux, daysInMonth]
  norm_num
  split <;> omega

lemma daysBeforeMonth_succ {y m : Int} (h1 : 1 ≤ m) :
    daysBeforeMonth y (m + 1) = daysBeforeMonth y m + daysInMonth y m := by
  unfold daysBeforeMonth
  have he : (m + 1 - 1).toNat = (m - 1).toNat + 1 := by omega
  rw [he]
  show daysBeforeMonthAux y ((m - 1).toNat) + daysInMonth y (((m - 1).toNat : Int) + 1) = _
  have hc : (((m - 1).toNat : Int) + 1) = m := by omega
  rw [hc]

lemma toRD_succDay {d : Date} (h : d.Valid) : toRD (succDay d) = toRD d + 1 := by
  obtain ⟨y, m, dy⟩ := d
  obtain ⟨h1, h2, h3, h4⟩ := h
  simp only at h1 h2 h3 h4
  unfold succDay
  simp only
  split
  · simp only [toRD]; omega
  · split
    · rename_i hdim hm
      have hkey := daysBeforeMonth_succ (y := y) (m := m) h1
      simp only [toRD]
      omega
    · rename_i hdim hm
      have hm12 : m = 12 := by omega
      subst hm12
      have hdim12 : daysInMonth y 12 = 31 := by simp [daysInMonth]
      have hday : dy = 31 := by omega
      subst hday
      have h11 : daysBeforeMonth y 13 = daysBeforeMonth y 12 + daysInMonth y 12 := by
        have := daysBeforeMonth_succ (y := y) (m := 12) (by norm_num)
        norm_num at this
        exact this
      have h13 : daysBeforeMonth y 13 = daysBeforeMonthAux y 12 := by
        unfold daysBeforeMonth
        congr 1
      have h01 : daysBeforeMonth (y + 1) 1 = 0 := by
        simp [daysBeforeMonth, daysBeforeMonthAux]
      have hy := daysBeforeYear_succ y
      have ht := daysBeforeMonthAux_year_total y
      simp only [toRD, h01]
      rcases Bool.eq_false_or_eq_true (isLeap y) with hb | hb <;>
        simp only [hb, if_false, if_true] at hy ht <;> omega

lemma toRD_predDay {d : Date} (h : d.Valid) : toRD (predDay d) = toRD d - 1 := by
  have hv : (predDay d).Valid := predDay_valid h
  have hs : succDay (predDay d) = d := by
    obtain ⟨y, m, dy⟩ := d
    obtain ⟨h1, h2, h3, h4⟩ := h
    simp only at h1 h2 h3 h4
    unfold predDay
    simp only
    split
    · unfold succDay
      simp only
      split
      · simp only [Date.mk.injEq, true_and]
        omega
      · omega
    · split
      · rename_i hd1 hm1
        have hge := (daysInMonth_bounds (y := y) (m := m - 1) (by omega) (by omega)).1
        unfold succDay
        simp only
        split
        · omega
        · split
          · simp only [Date.mk.injEq, true_and]
            omega
          · omega
      · rename_i hd1 hm1
        have hm : m = 1 := by omega
        have hd : dy = 1 := by omega
        subst hm; subst hd
        unfold succDay
        have h31 : daysInMonth (y - 1) 12 = 31 := by simp [daysInMonth]
        simp [h31]
  have := toRD_succDay hv
  rw [hs] at this
  omega

lemma addDaysNat_valid {d : Date} (h : d.Valid) (n : Nat) : (addDaysNat d n).Valid := by
  induction n with
  | zero => exact h
  | succ n ih => exact succDay_valid ih

lemma subDaysNat_valid {d : Date} (h : d.Valid) (n : Nat) : (subDaysNat d n).Valid := by
  induction n with
  | zero => exact h
  | succ n ih => exact predDay_valid ih

lemma addDays_valid {d : Date} (h : d.Valid) (k : Int) : (addDays d k).Valid := by
  unfold addDays
  split
  · exact addDaysNat_valid h _
  · exact subDaysNat_valid h _

lemma toRD_addDaysNat {d : Date} (h : d.Valid) (n : Nat) :
    toRD (addDaysNat d n) = toRD d + n := by
  induction n with
  | zero => simp [addDaysNat]
  | succ n ih =>
    have := toRD_succDay (addDaysNat_valid h n)
    simp only [addDaysNat, this, ih]
    omega

lemma toRD_subDaysNat {d : Date} (h : d.Valid) (n : Nat) :
    toRD (subDaysNat d n) = toRD d - n := by
  induction n with
  | zero => simp [subDaysNat]
  | succ n ih =>
    have := toRD_predDay (subDaysNat_valid h n)
    simp only [subDaysNat, this, ih]
    omega

lemma toRD_addDays {d : Date} (h : d.Valid) (k : Int) :
    toRD (addDays d k) = toRD d + k := by
  unfold addDays
  split
  · rw [toRD_addDaysNat h]; omega
  · rw [toRD_subDaysNat h]; omega

/-- Sanity anchor: January 1 of year 1 has Python ordinal 1 and was a
Monday, and 2024-02-01 (a Thursday) checks out. -/
theorem toRD_anchor : toRD ⟨1, 1, 1⟩ = 1 ∧ pyWeekday ⟨1, 1, 1⟩ = 0 ∧
    pyWeekday ⟨2024, 2, 1⟩ = 3 ∧ daysInMonth 2024 2 = 29 := by decide

/-- `add_months` from dailies/chore.py: month rollover with year carry
(Python `%` and `//` on ints agree with `Int.emod`/`Int.ediv`). -/
def add_months (year month delta_months : Int) : Int × Int :=
  let new_month := (month - 1 + delta_months) % 12 + 1
  let new_year := year + (month - 1 + delta_months) / 12
  (new_year, new_month)

/-- `get_monthday` from dailies/chore.py: positive offsets verbatim,
non-positive offsets counted from the end of the month. -/
def get_monthday (year month delta : Int) : Int :=
  if 0 < delta then delta
  else daysInMonth year month + delta

/-- The `Chore` class of dailies/chore.py with its field defaults. -/
structure Chore where
  title : String := ""
  interval : Option Int := none
  unit : Option String := none
  weekday : Option String := none
  monthdays : Int := 0
  date : Option Date := none
  user : Int := 0
deriving DecidableEq, Repr

/-- `Chore.get_weekday_index`: letter code to 0=Monday .. 6=Sunday,
`-1` for anything else (including an unset weekday). -/
def Chore.get_weekday_index (c : Chore) : Int :=
  if c.weekday = some "m" then 0
  else if c.weekday = some "t" then 1
  else if c.weekday = some "w" then 2
  else if c.weekday = some "r" then 3
  else if c.weekday = some "f" then 4
  else if c.weekday = some "s" then 5
  else if c.weekday = some "u" then 6
  else -1

/-- The exceptions `Chore.calculate_next_date` can raise: the two
explicit `raise Exception(...)` sites, the `TypeError` from using an
unset interval in arithmetic, and the `ValueError` from constructing
an out-of-range `datetime.date`. -/
inductive CalcErr where
  | invalidWeekday
  | invalidUnit
  | noneInterval
  | badDate
deriving DecidableEq, Repr

instance {ε α : Type} [DecidableEq ε] [DecidableEq α] : DecidableEq (Except ε α)
  | .error e, .error f =>
    if h : e = f then isTrue (by subst h; rfl) else isFalse (fun hc => h (by cases hc; rfl))
  | .error _, .ok _ => isFalse (fun hc => Except.noConfusion hc)
  | .ok _, .error _ => isFalse (fun hc => Except.noConfusion hc)
  | .ok x, .ok y =>
    if h : x = y then isTrue (by subst h; rfl) else isFalse (fun hc => h (by cases hc; rfl))

/-- `datetime.date(y, m, d)`: validates month and day (raises
`ValueError`, here `.error .badDate`, otherwise). -/
def mkValidDate (y m d : Int) : Except CalcErr Date :=
  if (Date.mk y m d).Valid then .ok ⟨y, m, d⟩ else .error .badDate

/-- The candidate date the interval-months branch derives from a
previous scheduled date: step back one month when the previous day
precedes the current target day, advance `interval` months, and
re-resolve the month day. -/
def monthSchedCandidate (monthdays interval : Int) (now s : Date) : Except CalcErr Date :=
  let day := get_monthday now.year now.month monthdays
  let p := if s.day < day then add_months s.year s.month (-1) else (s.year, s.month)
  let q := add_months p.1 p.2 interval
  mkValidDate q.1 q.2 (get_monthday q.1 q.2 monthdays)

/-- `Chore.calculate_next_date` from dailies/chore.py, with the process
clock passed explicitly as `now`.

Faithfulness notes: a fixed `date` is returned unconditionally; the
interval-days branch never reads `interval` when `sched_date` is absent;
in the interval-months branch the local variable `day` is overwritten by
the sched-derived candidate's day before the fall-through logic runs
(hence `fallbackM result.day`). -/
def Chore.calculate_next_date (c : Chore) (now : Date) (sched_date : Option Date) :
    Except CalcErr Date :=
  match c.date with
  | some d => .ok d
  | none =>
    if c.unit = some "d" then
      match sched_date with
      | none => .ok (addDays now 1)
      | some s =>
        match c.interval with
        | none => .error .noneInterval
        | some i => .ok (addDays now (max (i - dateSub now s) 1))
    else if c.unit = some "w" then
      let wd := c.get_weekday_index
      if wd = -1 then .error .invalidWeekday
      else
        let cw := pyWeekday now
        let fallback : Except CalcErr Date :=
          if cw < wd then .ok (addDays now (wd - cw))
          else .ok (addDays now (7 + (wd - cw)))
        match sched_date with
        | none => fallback
        | some s =>
          match c.interval with
          | none => .error .noneInterval
          | some i =>
            let s' :=
              if wd < pyWeekday s then addDays s (-(pyWeekday s - wd))
              else if pyWeekday s < wd then addDays s (-(7 - (wd - pyWeekday s)))
              else s
            let result := addDays s' (i * 7)
            if 0 < dateSub result now then .ok result else fallback
    else if c.unit = some "m" then
      let day := get_monthday now.year now.month c.monthdays
      let fallbackM : Int → Except CalcErr Date := fun day =>
        if now.day < day then mkValidDate now.year now.month day
        else
          let q := add_months now.year now.month 1
          mkValidDate q.1 q.2 (get_monthday q.1 q.2 c.monthdays)
      match sched_date with
      | none => fallbackM day
      | some s =>
        match c.interval with
        | none => .error .noneInterval
        | some i =>
          match monthSchedCandidate c.monthdays i now s with
          | .error e => .error e
          | .ok result =>
            if 0 < dateSub result now then .ok result
            else fallbackM result.day
    else .error .invalidUnit

lemma get_weekday_index_range (c : Chore) :
    c.get_weekday_index = -1 ∨ (0 ≤ c.get_weekday_index ∧ c.get_weekday_index ≤ 6) := by
  unfold Chore.get_weekday_index
  repeat' split
  all_goals omega

lemma calc_d_none (c : Chore) (now : Date) (hu : c.unit = some "d") (hd : c.date = none) :
    c.calculate_next_date now none = .ok (addDays now 1) := by
  simp [Chore.calculate_next_date, hd, hu]

lemma calc_d_some (c : Chore) (now s : Date) (i : Int)
    (hu : c.unit = some "d") (hd : c.date = none) (hi : c.interval = some i) :
    c.calculate_next_date now (some s) = .ok (addDays now (max (i - dateSub now s) 1)) := by
  simp [Chore.calculate_next_date, hd, hu, hi]

/-- C5: for an interval-days chore with no fixed date and no previous
scheduled date, `calculate_next_date` returns exactly `today + 1 day`,
whatever the declared interval (which is not even read on this path). -/
theorem interval_days_first_is_tomorrow (c : Chore) (now : Date)
    (hu : c.unit = some "d") (hd : c.date = none) (hv : now.Valid) :
    c.calculate_next_date now none = .ok (addDays now 1) ∧
    toRD (addDays now 1) = toRD now + 1 :=
  ⟨calc_d_none c now hu hd, toRD_addDays hv 1⟩

theorem interval_days_first_is_tomorrow_witness :
    (Chore.mk "dishes" (some 5) (some "d") none 0 none 42).calculate_next_date
        ⟨2025, 6, 1⟩ none = .ok (addDays ⟨2025, 6, 1⟩ 1) ∧
    toRD (addDays ⟨2025, 6, 1⟩ 1) = toRD ⟨2025, 6, 1⟩ + 1 :=
  interval_days_first_is_tomorrow _ _ rfl rfl (by decide)

/-- C4: for an interval-days chore, the result of `calculate_next_date`
is strictly after `today` for every optional previous scheduled date
(even when the elapsed time exceeds the interval), and with a previous
date it equals `today + max(interval - (today - previousDate), 1)`. -/
theorem interval_days_always_future (c : Chore) (now : Date) (sched : Option Date) (i : Int)
    (hu : c.unit = some "d") (hd : c.date = none) (hi : c.interval = some i)
    (hv : now.Valid) :
    (∀ r, c.calculate_next_date now sched = .ok r → toRD now < toRD r) ∧
    (∀ s, sched = some s →
      c.calculate_next_date now sched = .ok (addDays now (max (i - dateSub now s) 1))) := by
  constructor
  · intro r hr
    cases sched with
    | none =>
      rw [calc_d_none c now hu hd] at hr
      injection hr with h
      subst h
      rw [toRD_addDays hv]
      omega
    | some s =>
      rw [calc_d_some c now s i hu hd hi] at hr
      injection hr with h
      subst h
      rw [toRD_addDays hv]
      have h1 : 1 ≤ max (i - dateSub now s) 1 := le_max_right _ _
      omega
  · intro s hs
    subst hs
    exact calc_d_some c now s i hu hd hi

theorem interval_days_always_future_witness :
    ((∀ r, (Chore.mk "t" (some 3) (some "d") none 0 none 7).calculate_next_date
        ⟨2025, 6, 5⟩ (some ⟨2025, 5, 30⟩) = .ok r → toRD ⟨2025, 6, 5⟩ < toRD r) ∧
    (∀ s, (some ⟨2025, 5, 30⟩ : Option Date) = some s →
      (Chore.mk "t" (some 3) (some "d") none 0 none 7).calculate_next_date
        ⟨2025, 6, 5⟩ (some ⟨2025, 5, 30⟩)
        = .ok (addDays ⟨2025, 6, 5⟩ (max (3 - dateSub ⟨2025, 6, 5⟩ s) 1)))) :=
  interval_days_always_future _ _ _ _ rfl rfl rfl (by decide)

lemma pyWeekday_addDays {d : Date} (h : d.Valid) (k : Int) :
    pyWeekday (addDays d k) = (toRD d + k + 6) % 7 := by
  unfold pyWeekday
  rw [toRD_addDays h]

lemma calc_w_none (c : Chore) (now : Date)
    (hu : c.unit = some "w") (hd : c.date = none) (hwd : c.get_weekday_index ≠ -1) :
    c.calculate_next_date now none =
      (if pyWeekday now < c.get_weekday_index then
        .ok (addDays now (c.get_weekday_index - pyWeekday now))
       else .ok (addDays now (7 + (c.get_weekday_index - pyWeekday now)))) := by
  simp [Chore.calculate_next_date, hd, hu, hwd]

lemma calc_w_some (c : Chore) (now s : Date) (i : Int)
    (hu : c.unit = some "w") (hd : c.date = none) (hi : c.interval = some i)
    (hwd : c.get_weekday_index ≠ -1) :
    c.calculate_next_date now (some s) =
      (let wd := c.get_weekday_index
       let s' := if wd < pyWeekday s then addDays s (-(pyWeekday s - wd))
                 else if pyWeekday s < wd then addDays s (-(7 - (wd - pyWeekday s)))
                 else s
       let result := addDays s' (i * 7)
       if 0 < dateSub result now then .ok result
       else if pyWeekday now < wd then .ok (addDays now (wd - pyWeekday now))
       else .ok (addDays now (7 + (wd - pyWeekday now)))) := by
  simp [Chore.calculate_next_date, hd, hu, hi, hwd]

lemma weeks_fallback_weekday {now : Date} (hv : now.Valid) {wd : Int}
    (h0 : 0 ≤ wd) (h6 : wd ≤ 6) {r : Date}
    (hr : (if pyWeekday now < wd then
            (Except.ok (addDays now (wd - pyWeekday now)) : Except CalcErr Date)
           else .ok (addDays now (7 + (wd - pyWeekday now)))) = .ok r) :
    pyWeekday r = wd := by
  split at hr <;> (injection hr with h; subst h) <;> rw [pyWeekday_addDays hv] <;>
    (unfold pyWeekday at *; omega)

/-- C6: for an interval-weeks chore with a valid weekday code, the date
returned by `calculate_next_date` always falls on the configured
weekday, for every `today` and every optional previous scheduled date. -/
theorem interval_weeks_lands_on_weekday (c : Chore) (now : Date) (sched : Option Date)
    (i : Int) (hu : c.unit = some "w") (hd : c.date = none) (hi : c.interval = some i)
    (hwd : c.get_weekday_index ≠ -1) (hv : now.Valid)
    (hsv : ∀ s, sched = some s → s.Valid) :
    ∀ r, c.calculate_next_date now sched = .ok r →
      pyWeekday r = c.get_weekday_index := by
  obtain ⟨h0, h6⟩ := (get_weekday_index_range c).resolve_left hwd
  intro r hr
  cases sched with
  | none =>
    rw [calc_w_none c now hu hd hwd] at hr
    exact weeks_fallback_weekday hv h0 h6 hr
  | some s =>
    have hsval : s.Valid := hsv s rfl
    rw [calc_w_some c now s i hu hd hi hwd] at hr
    simp only [] at hr
    by_cases hA : c.get_weekday_index < pyWeekday s
    · rw [if_pos hA] at hr
      split at hr
      · injection hr with h
        subst h
        have hv1 : (addDays s (-(pyWeekday s - c.get_weekday_index))).Valid :=
          addDays_valid hsval _
        rw [pyWeekday_addDays hv1, toRD_addDays hsval]
        unfold pyWeekday at *
        omega
      · exact weeks_fallback_weekday hv h0 h6 hr
    · rw [if_neg hA] at hr
      by_cases hB : pyWeekday s < c.get_weekday_index
      · rw [if_pos hB] at hr
        split at hr
        · injection hr with h
          subst h
          have hv1 : (addDays s (-(7 - (c.get_weekday_index - pyWeekday s)))).Valid :=
            addDays_valid hsval _
          rw [pyWeekday_addDays hv1, toRD_addDays hsval]
          unfold pyWeekday at *
          omega
        · exact weeks_fallback_weekday hv h0 h6 hr
      · rw [if_neg hB] at hr
        split at hr
        · injection hr with h
          subst h
          rw [pyWeekday_addDays hsval]
          unfold pyWeekday at *
          omega
        · exact weeks_fallback_weekday hv h0 h6 hr

theorem interval_weeks_lands_on_weekday_witness :
    pyWeekday ⟨2024, 2, 5⟩ = (Chore.mk "t" (some 1) (some "w") (some "m") 0 none 7).get_weekday_index :=
  interval_weeks_lands_on_weekday (Chore.mk "t" (some 1) (some "w") (some "m") 0 none 7)
    ⟨2024, 2, 1⟩ none 1 rfl rfl rfl (by decide) (by decide)
    (fun s hs => by cases hs) ⟨2024, 2, 5⟩ (by decide)

lemma calc_m_none (c : Chore) (now : Date)
    (hu : c.unit = some "m") (hd : c.date = none) :
    c.calculate_next_date now none =
      (let day := get_monthday now.year now.month c.monthdays
       if now.day < day then mkValidDate now.year now.month day
       else
         let q := add_months now.year now.month 1
         mkValidDate q.1 q.2 (get_monthday q.1 q.2 c.monthdays)) := by
  simp [Chore.calculate_next_date, hd, hu]

lemma calc_m_some (c : Chore) (now s : Date) (i : Int)
    (hu : c.unit = some "m") (hd : c.date = none) (hi : c.interval = some i) :
    c.calculate_next_date now (some s) =
      (match monthSchedCandidate c.monthdays i now s with
       | .error e => .error e
       | .ok result =>
         if 0 < dateSub result now then .ok result
         else if now.day < result.day then mkValidDate now.year now.month result.day
         else
           let q := add_months now.year now.month 1
           mkValidDate q.1 q.2 (get_monthday q.1 q.2 c.monthdays)) := by
  simp [Chore.calculate_next_date, hd, hu, hi]

lemma mkValidDate_ok {y m d : Int} {r : Date} (h : mkValidDate y m d = .ok r) :
    r = ⟨y, m, d⟩ ∧ (Date.mk y m d).Valid := by
  unfold mkValidDate at h
  split at h
  · injection h with h2
    exact ⟨h2.symm, by assumption⟩
  · cases h

lemma get_monthday_neg_one (y m : Int) :
    get_monthday y m (-1) = daysInMonth y m - 1 := by
  unfold get_monthday
  norm_num
  ring

/-- C1 (counterexample to the claim as stated): for an interval-months
chore with monthday offset `-1`, a February target in the 2024 leap year
resolves to the 28th, while the last calendar day of that month is the
29th — offset `-1` selects the second-to-last day, not the last. -/
theorem interval_months_minus_one_not_last_day :
    (Chore.mk "rent" (some 1) (some "m") none (-1) none 7).calculate_next_date
        ⟨2024, 2, 1⟩ none = .ok ⟨2024, 2, 28⟩ ∧
    daysInMonth 2024 2 = 29 ∧ (28 : Int) ≠ 29 := by decide

/-- C1 (amended): for an interval-months chore with monthday offset
`-1`, the returned date's day is `daysInMonth - 1` (the second-to-last
calendar day of its month) whenever there is no previous scheduled date,
and likewise on the candidate path when the candidate derived from a
previous scheduled date lies strictly after today. -/
theorem interval_months_minus_one_second_to_last (c : Chore) (now : Date) (i : Int)
    (hu : c.unit = some "m") (hd : c.date = none) (hm : c.monthdays = -1)
    (hi : c.interval = some i) :
    (∀ r, c.calculate_next_date now none = .ok r →
        r.day = daysInMonth r.year r.month - 1) ∧
    (∀ s cand, monthSchedCandidate c.monthdays i now s = .ok cand →
        0 < dateSub cand now →
        c.calculate_next_date now (some s) = .ok cand ∧
        cand.day = daysInMonth cand.year cand.month - 1) := by
  constructor
  · intro r hr
    rw [calc_m_none c now hu hd] at hr
    simp only [hm] at hr
    split at hr
    · obtain ⟨h1, _⟩ := mkValidDate_ok hr
      subst h1
      simp [get_monthday_neg_one]
    · obtain ⟨h1, _⟩ := mkValidDate_ok hr
      subst h1
      simp [get_monthday_neg_one]
  · intro s cand hcand hgt
    rw [calc_m_some c now s i hu hd hi, hcand]
    dsimp only
    rw [if_pos hgt]
    refine ⟨rfl, ?_⟩
    unfold monthSchedCandidate at hcand
    simp only [hm] at hcand
    obtain ⟨h1, _⟩ := mkValidDate_ok hcand
    subst h1
    simp [get_monthday_neg_one]

theorem interval_months_minus_one_second_to_last_witness :
    (Date.mk 2024 2 28).day
      = daysInMonth (Date.mk 2024 2 28).year (Date.mk 2024 2 28).month - 1 :=
  (interval_months_minus_one_second_to_last
      (Chore.mk "rent" (some 1) (some "m") none (-1) none 7)
      ⟨2024, 2, 1⟩ 1 rfl rfl rfl rfl).1 ⟨2024, 2, 28⟩ (by decide)

/-! ## Command parsing (dailies/command.py) -/

/-- Decimal value of a list of digit characters (accumulating fold). -/
def charsToNat (cs : List Char) : Nat :=
  cs.foldl (fun a c => 10 * a + (c.toNat - 48)) 0

/-- All-digit string to number; `none` on empty or non-digit input. -/
def digitsToNat? (cs : List Char) : Option Nat :=
  if cs ≠ [] ∧ cs.all (fun c => c.isDigit) then some (charsToNat cs)
  else none

/-- Python `int(str)` on a whitespace-free token: optional sign followed
by digits.  (Python additionally allows underscores between digits;
tokens here come from `str.split()` and are modelled without that.) -/
def pyParseInt? (cs : List Char) : Option Int :=
  match cs with
  | '-' :: rest => (digitsToNat? rest).map (fun n => -(n : Int))
  | '+' :: rest => (digitsToNat? rest).map (fun n => (n : Int))
  | _ => (digitsToNat? cs).map (fun n => (n : Int))

/-- `parse_duration` from dailies/command.py: token of length > 1 whose
last character (lower-cased) is `d`/`w`/`m` and whose remainder parses
as a signed integer; `none` otherwise. -/
def parse_duration (s : String) : Option (Int × String) :=
  if 1 < s.data.length then
    match s.data.getLast? with
    | none => none
    | some c =>
      let u := c.toLower
      if u = 'd' ∨ u = 'w' ∨ u = 'm' then
        match pyParseInt? s.data.dropLast with
        | some n => some (n, String.mk [u])
        | none => none
      else none
  else none

/-- Python `str.lower()`, character-wise (ASCII case mapping; the
tokens compared here are ASCII). -/
def strToLower (s : String) : String := String.mk (s.data.map Char.toLower)

/-- The `ChoreParseException` raise sites of `parse_chore_from_line`,
carrying the offending token where the message names one. -/
inductive ChoreParseErr where
  | unclosedTitle
  | missingArguments
  | invalidUser (s : String)
  | invalidUserId (s : String)
  | invalidDuration (s : String)
  | missingWeekday
  | missingMonthday
  | invalidWeekdayTok (s : String)
  | invalidMonthday (s : String)
  | invalidDateFormat (s : String)
  | dateNotAfterToday (s : String)
  | invalidKeyword (s : String)
deriving DecidableEq, Repr

/-- The quoted-title loop of `parse_chore_from_line`: walk the words
after the first token, appending each to the title, until one ends in a
double quote; `none` when no word does (`end_str` stays false).  The
returned counter is Python's `n` (1 plus the number of consumed words). -/
def titleLoop (acc : String) (words : List String) (n : Nat) : Option (String × Nat) :=
  match words with
  | [] => none
  | w :: rest =>
    if 0 < w.data.length then
      if w.data.getLast? = some '\x22' then
        some (acc ++ " " ++ String.mk w.data.dropLast, n + 1)
      else titleLoop (acc ++ " " ++ w) rest (n + 1)
    else titleLoop acc rest (n + 1)

/-- Greedy scan of at most `fuel` leading digit characters
(the digit-field behavior of `strptime`). -/
def takeDigits : Nat → List Char → List Char × List Char
  | 0, cs => ([], cs)
  | _ + 1, [] => ([], [])
  | fuel + 1, c :: cs =>
    if c.isDigit then
      let p := takeDigits fuel cs
      (c :: p.1, p.2)
    else ([], c :: cs)

/-- `datetime.date` construction as `strptime` performs it: month and
day ranges checked against the calendar, year within Python's
`MINYEAR..MAXYEAR`. -/
def mkDateChecked (y m d : Nat) : Option Date :=
  let dt : Date := ⟨y, m, d⟩
  if dt.Valid ∧ 1 ≤ y ∧ y ≤ 9999 then some dt else none

/-- `strptime(s, "%Y<sep>%m<sep>%d").date()`: exactly four year digits
(CPython's `%Y` field matches the regex `\d\d\d\d`), separator, one or
two month digits, separator, one or two day digits, nothing trailing,
then a validated date. -/
def parseYMD (sep : Char) (s : String) : Option Date :=
  let p1 := takeDigits 4 s.data
  if p1.1.length ≠ 4 then none
  else
    match p1.2 with
    | [] => none
    | c :: r2 =>
      if c = sep then
        let p2 := takeDigits 2 r2
        match p2.1, p2.2 with
        | [], _ => none
        | _, [] => none
        | ms, c2 :: r4 =>
          if c2 = sep then
            let p3 := takeDigits 2 r4
            if p3.1 ≠ [] ∧ p3.2 = [] then
              mkDateChecked (charsToNat p1.1) (charsToNat ms) (charsToNat p3.1)
            else none
          else none
      else none

/-- `strptime(s, "%m<sep>%d<sep>%Y").date()` (the year field again
requires exactly four digits). -/
def parseMDY (sep : Char) (s : String) : Option Date :=
  let p1 := takeDigits 2 s.data
  match p1.1, p1.2 with
  | [], _ => none
  | _, [] => none
  | ms, c :: r2 =>
    if c = sep then
      let p2 := takeDigits 2 r2
      match p2.1, p2.2 with
      | [], _ => none
      | _, [] => none
      | ds, c2 :: r4 =>
        if c2 = sep then
          let p3 := takeDigits 4 r4
          if p3.1.length = 4 ∧ p3.2 = [] then
            mkDateChecked (charsToNat p3.1) (charsToNat ms) (charsToNat ds)
          else none
        else none
    else none

/-- The `for date_format in valid_formats` loop of the `on` branch:
first format that parses wins; a parsed date on or before today raises
immediately; exhausting the formats is the format error. -/
def tryDateFormats (tok : String) (now : Date) : List (String → Option Date) → Except ChoreParseErr Date
  | [] => .error (.invalidDateFormat tok)
  | f :: fs =>
    match f tok with
    | none => tryDateFormats tok now fs
    | some dt =>
      if dateSub dt now ≤ 0 then .error (.dateNotAfterToday tok) else .ok dt

/-- The four formats of `valid_formats`, in source order. -/
def validFormats : List (String → Option Date) :=
  [parseYMD '/', parseYMD '-', parseMDY '/', parseMDY '-']

/-- `parse_chore_from_line` from dailies/command.py, with the clock
passed as `now`.  The outer `Option` is `none` only for an empty
argument list (Python would raise `IndexError` there; the bot never
passes one).  Faithfulness notes: a closing quote is only looked for on
the words after the first token; the out-of-range month-day message is
the integer one because Python's bare `except` swallows the range
exception and re-raises. -/
def parse_chore_from_line (args : List String) (now : Date) :
    Option (Except ChoreParseErr Chore) :=
  match args with
  | [] => none
  | a0 :: rest =>
    some (
      let tRes : Except ChoreParseErr (String × Nat) :=
        if a0.data.head? = some '\x22' then
          match titleLoop (String.mk a0.data.tail) rest 1 with
          | none => .error .unclosedTitle
          | some tn => .ok tn
        else .ok (a0, 1)
      match tRes with
      | .error e => .error e
      | .ok (title, n) =>
        if args.length < n + 3 then .error .missingArguments
        else
          let user_str := args.getD n ""
          if user_str.data.length < 4 ∨ user_str.data.take 2 ≠ ['<', '@'] ∨
              user_str.data.getLast? ≠ some '>' then
            .error (.invalidUser user_str)
          else
            match pyParseInt? (user_str.data.drop 2).dropLast with
            | none => .error (.invalidUserId user_str)
            | some uid =>
              if args.getD (n + 1) "" = "every" then
                let duration_str := args.getD (n + 2) ""
                match parse_duration duration_str with
                | none => .error (.invalidDuration duration_str)
                | some iu =>
                  if iu.2 ≠ "d" ∧ args.length < n + 4 then
                    if iu.2 = "w" then .error .missingWeekday
                    else .error .missingMonthday
                  else if iu.2 = "w" then
                    let wtok := strToLower (args.getD (n + 3) "")
                    if wtok ∉ ["sunday", "u", "monday", "m", "tuesday", "t", "wednesday",
                        "w", "thursday", "r", "friday", "f", "saturday", "s"] then
                      .error (.invalidWeekdayTok (args.getD (n + 3) ""))
                    else
                      let wcode :=
                        if wtok = "sunday" then "u"
                        else if wtok = "thursday" then "r"
                        else if 1 < wtok.data.length then String.mk [wtok.data.headD 'x']
                        else wtok
                      .ok { title := title, interval := some iu.1, unit := some iu.2,
                            weekday := some wcode, user := uid }
                  else if iu.2 = "m" then
                    match pyParseInt? (args.getD (n + 3) "").data with
                    | none => .error (.invalidMonthday (args.getD (n + 3) ""))
                    | some md =>
                      if 20 < md.natAbs then .error (.invalidMonthday (args.getD (n + 3) ""))
                      else .ok { title := title, interval := some iu.1, unit := some iu.2,
                                 monthdays := md, user := uid }
                  else
                    .ok { title := title, interval := some iu.1, unit := some iu.2, user := uid }
              else if args.getD (n + 1) "" = "on" then
                match tryDateFormats (args.getD (n + 2) "") now validFormats with
                | .error e => .error e
                | .ok dt => .ok { title := title, date := some dt, user := uid }
              else .error (.invalidKeyword (args.getD n "")))

lemma titleLoop_none (words : List String)
    (h : ∀ w ∈ words, w.data.getLast? ≠ some '\x22') :
    ∀ acc n, titleLoop acc words n = none := by
  induction words with
  | nil => intro acc n; rfl
  | cons w rest ih =>
    intro acc n
    unfold titleLoop
    have hw := h w (by simp)
    have hrest : ∀ x ∈ rest, x.data.getLast? ≠ some '\x22' := fun x hx => h x (by simp [hx])
    by_cases h0 : 0 < w.data.length
    · rw [if_pos h0, if_neg hw]
      exact ih hrest _ _
    · rw [if_neg h0]
      exact ih hrest _ _

/-- C10: when the first token starts (and even ends) with a double
quote and no later token ends with one, `parse_chore_from_line` raises
the unclosed-quote error: the closing quote on the first token itself is
never examined. -/
theorem quoted_first_token_never_self_closes (a0 : String) (rest : List String) (now : Date)
    (hhead : a0.data.head? = some '\x22')
    (hlast : a0.data.getLast? = some '\x22')
    (hrest : ∀ w ∈ rest, w.data.getLast? ≠ some '\x22') :
    parse_chore_from_line (a0 :: rest) now = some (.error .unclosedTitle) := by
  unfold parse_chore_from_line
  dsimp only
  rw [if_pos hhead, titleLoop_none rest hrest]

theorem quoted_first_token_never_self_closes_witness :
    parse_chore_from_line ["\x22Dishes\x22", "<@42>", "every", "2d"] ⟨2025, 6, 2⟩
      = some (.error .unclosedTitle) :=
  quoted_first_token_never_self_closes "\x22Dishes\x22" ["<@42>", "every", "2d"]
    ⟨2025, 6, 2⟩ (by decide) (by decide) (by decide)

/-! ## State and scheduler loop (dailies/bot.py) -/

/-- Keys of an association list standing for a Python dict. -/
def dictKeys {α : Type} (l : List (Int × α)) : List Int := l.map Prod.fst

/-- `d[k]` lookup (first matching key; key lists are kept duplicate-free
by the operations, as for a Python dict). -/
def dictGet {α : Type} (k : Int) : List (Int × α) → Option α
  | [] => none
  | (k2, v) :: rest => if k2 = k then some v else dictGet k rest

/-- `d[k] = v`: update in place, else append (Python dict semantics,
insertion order kept). -/
def dictInsert {α : Type} (k : Int) (v : α) : List (Int × α) → List (Int × α)
  | [] => [(k, v)]
  | (k2, v2) :: rest => if k2 = k then (k, v) :: rest else (k2, v2) :: dictInsert k v rest

/-- `del d[k]`: drop the (first) entry with key `k`. -/
def dictErase {α : Type} (k : Int) : List (Int × α) → List (Int × α)
  | [] => []
  | (k2, v2) :: rest => if k2 = k then rest else (k2, v2) :: dictErase k rest

/-- Fold maximum of an integer list (termination bound for the
id-search loop). -/
def listMax (ks : List Int) : Int := ks.foldr max 0

lemma le_listMax {k : Int} {ks : List Int} (h : k ∈ ks) : k ≤ listMax ks := by
  induction ks with
  | nil => cases h
  | cons a rest ih =>
    rcases List.mem_cons.mp h with rfl | h2
    · exact le_max_left _ _
    · exact le_trans (ih h2) (le_max_right _ _)

/-- Iteration kernel of the id-search loop, recursing on an explicit
bound that dominates the loop trip count (the Python `while` increments
past at most the keys between `n` and the maximum key). -/
def nextChoreIdGo (ks : List Int) : Nat → Int → Int
  | 0, n => n
  | fuel + 1, n => if n ∈ ks then nextChoreIdGo ks fuel (n + 1) else n

/-- The `while self.last_chore_id in self.chores: self.last_chore_id += 1`
loop of `DailiesState.add_new_chore`: the first id not below `n` that is
not a key. -/
def nextChoreId (ks : List Int) (n : Int) : Int :=
  nextChoreIdGo ks (listMax ks + 1 - n).toNat n

lemma nextChoreIdGo_spec (ks : List Int) :
    ∀ (fuel : Nat) (n : Int), (∀ m, n ≤ m → m ∈ ks → m < n + (fuel : Int)) →
      n ≤ nextChoreIdGo ks fuel n ∧ nextChoreIdGo ks fuel n ∉ ks ∧
      ∀ m, n ≤ m → m < nextChoreIdGo ks fuel n → m ∈ ks := by
  intro fuel
  induction fuel with
  | zero =>
    intro n hcov
    have hn : n ∉ ks := fun hmem => by
      have := hcov n (le_refl _) hmem
      omega
    exact ⟨le_refl _, hn, fun m h1 h2 => absurd (lt_of_le_of_lt h1 h2) (lt_irrefl _)⟩
  | succ fuel ih =>
    intro n hcov
    unfold nextChoreIdGo
    by_cases hmem : n ∈ ks
    · rw [if_pos hmem]
      have hcov2 : ∀ m, n + 1 ≤ m → m ∈ ks → m < n + 1 + fuel := by
        intro m h1 h2
        have := hcov m (by omega) h2
        omega
      obtain ⟨ih1, ih2, ih3⟩ := ih (n + 1) hcov2
      refine ⟨by omega, ih2, ?_⟩
      intro m h1 h2
      rcases eq_or_lt_of_le h1 with rfl | h
      · exact hmem
      · exact ih3 m (by omega) h2
    · rw [if_neg hmem]
      exact ⟨le_refl _, hmem, fun m h1 h2 => absurd (lt_of_le_of_lt h1 h2) (lt_irrefl _)⟩

/-- The id returned by the search loop: not in use, at least the
cursor value, and least such (everything between is in use). -/
lemma nextChoreId_spec (ks : List Int) (n : Int) :
    n ≤ nextChoreId ks n ∧ nextChoreId ks n ∉ ks ∧
    ∀ m, n ≤ m → m < nextChoreId ks n → m ∈ ks := by
  unfold nextChoreId
  apply nextChoreIdGo_spec
  intro m h1 h2
  have := le_listMax h2
  omega

/-- The persisted scheduler state: `DailiesState` of dailies/bot.py. -/
structure DailiesState where
  chores : List (Int × Chore) := []
  upcoming_chores : List (Int × Date) := []
  last_chore_id : Int := 0
  next_remind_date : Option Date := none
deriving DecidableEq, Repr

/-- `DailiesState.add_new_chore`, clock injected.  Returns the assigned
id, or `none` when `calculate_next_date` raises — in which case the
chore map was already mutated but the occurrence was not stored and
`save()` is never reached (the partial state is returned). -/
def add_new_chore (st : DailiesState) (chore : Chore) (now : Date) :
    Option Int × DailiesState :=
  let chore_id := nextChoreId (dictKeys st.chores) st.last_chore_id
  let st1 := { st with chores := dictInsert chore_id chore st.chores,
                       last_chore_id := chore_id }
  match chore.date with
  | some d =>
    (some chore_id, { st1 with upcoming_chores := dictInsert chore_id d st1.upcoming_chores })
  | none =>
    match chore.calculate_next_date now none with
    | .ok d =>
      (some chore_id, { st1 with upcoming_chores := dictInsert chore_id d st1.upcoming_chores })
    | .error _ => (none, st1)

/-- The `delete` command branch of `on_message`, after the id token
parsed as an integer: remove the chore and its pending occurrence;
`false` (with the state unchanged) when the id is unknown. -/
def deleteChore (st : DailiesState) (chore_id : Int) : DailiesState × Bool :=
  if (dictGet chore_id st.chores).isSome then
    ({ st with
        chores := dictErase chore_id st.chores,
        upcoming_chores :=
          if (dictGet chore_id st.upcoming_chores).isSome then
            dictErase chore_id st.upcoming_chores
          else st.upcoming_chores }, true)
  else (st, false)

/-- Outcome of the `delay` command branch: a reply with the resulting
state, or an uncaught Python exception. -/
inductive DelayOutcome where
  | reply (msg : String) (st : DailiesState)
  | crash
deriving DecidableEq, Repr

/-- The `delay` command branch of `on_message` (two argument tokens
present).  `crash` marks the uncaught exceptions: the `KeyError` when
an occurrence id is missing from the chore map, the `TypeError` from
unpacking `parse_duration`s `None` on a malformed duration token, and
the `ValueError` from an out-of-range month day.  The
"Invalid duration" reply is unreachable because `parse_duration` only
ever yields units `d`, `w`, `m`. -/
def delayChore (st : DailiesState) (idTok durTok : String) : DelayOutcome :=
  match pyParseInt? idTok.data with
  | none => .reply ("Chore ID not found: " ++ idTok) st
  | some cid =>
    match dictGet cid st.upcoming_chores with
    | none => .reply ("Chore ID not found: " ++ idTok) st
    | some remind_date =>
      match dictGet cid st.chores with
      | none => .crash
      | some chore =>
        match parse_duration durTok with
        | none => .crash
        | some nu =>
          if nu.2 = "d" then
            .reply ("Reminder updated") { st with
              upcoming_chores := dictInsert cid (addDays remind_date nu.1) st.upcoming_chores }
          else if nu.2 = "w" then
            .reply ("Reminder updated") { st with
              upcoming_chores := dictInsert cid (addDays remind_date (nu.1 * 7)) st.upcoming_chores }
          else if nu.2 = "m" then
            let q := add_months remind_date.year remind_date.month nu.1
            let day := get_monthday q.1 q.2 chore.monthdays
            if (Date.mk q.1 q.2 day).Valid then
              .reply ("Reminder updated") { st with
                upcoming_chores := dictInsert cid ⟨q.1, q.2, day⟩ st.upcoming_chores }
            else .crash
          else .reply ("Invalid duration: " ++ durTok) st

/-- Wall-clock time of day (`datetime.time`). -/
structure Time where
  hour : Int := 0
  minute : Int := 0
  second : Int := 0
deriving DecidableEq, Repr

def Time.secs (t : Time) : Int := 3600 * t.hour + 60 * t.minute + t.second

/-- An aware `datetime.datetime`, reduced to a date plus time of day on
a single absolute timeline (the bot compares `now` with the reminder
instant; the timezone structure is not modelled). -/
structure DateTime where
  date : Date
  time : Time
deriving DecidableEq, Repr

/-- Seconds on the absolute timeline; differences of this value embed
`(a - b).total_seconds()`. -/
def dtSecs (dt : DateTime) : Int := 86400 * toRD dt.date + dt.time.secs

/-- The configuration fields `remind_task` reads (`DailiesConfig`);
token, timezone and command-prefix handling belong to the excluded
transport layer. -/
structure DailiesConfig where
  discord_remind_channel : Int := 0
  remind_time : Time := { hour := 9 }
deriving DecidableEq, Repr

/-- The collection loop of `remind_task`: for each pending occurrence
that is due (`(date - now.date()).days <= 0`), look the chore up
(`KeyError` crash as `none` when absent), and either record a
recomputed occurrence (recurring chores) or mark the id for deletion
(fixed-date chores). -/
def sweepCollect (chores : List (Int × Chore)) (today : Date) :
    List (Int × Date) → Option (List (Int × Date) × List Int)
  | [] => some ([], [])
  | (cid, date) :: rest =>
    if dateSub date today ≤ 0 then
      match dictGet cid chores with
      | none => none
      | some chore =>
        match sweepCollect chores today rest with
        | none => none
        | some ud =>
          match chore.date with
          | none =>
            match chore.calculate_next_date today (some date) with
            | .error _ => none
            | .ok nd => some ((cid, nd) :: ud.1, ud.2)
          | some _ => some (ud.1, cid :: ud.2)
    else sweepCollect chores today rest

/-- `DailiesClient.remind_task`, one tick: no-op (`fired = false`)
when no reminder channel is set or the cursor instant has not arrived;
otherwise fire the due occurrences, apply the recomputations and
deletions, advance the cursor to tomorrow at the configured time, and
persist (`fired = true`).  `none` is an uncaught exception inside the
collection loop. -/
def remind_task (cfg : DailiesConfig) (next_remind_dt : DateTime) (st : DailiesState)
    (now : DateTime) : Option (DateTime × DailiesState × Bool) :=
  if cfg.discord_remind_channel = 0 then some (next_remind_dt, st, false)
  else if dtSecs now - dtSecs next_remind_dt < 0 then some (next_remind_dt, st, false)
  else
    match sweepCollect st.chores now.date st.upcoming_chores with
    | none => none
    | some ud =>
      let upc1 := ud.1.foldl (fun acc p => dictInsert p.1 p.2 acc) st.upcoming_chores
      let chores1 := ud.2.foldl (fun acc cid => dictErase cid acc) st.chores
      let upc2 := ud.2.foldl (fun acc cid => dictErase cid acc) upc1
      let newCursor : DateTime := ⟨addDays now.date 1, cfg.remind_time⟩
      some (newCursor,
        { st with chores := chores1, upcoming_chores := upc2,
                  next_remind_date := some newCursor.date }, true)

/-- C2 (counterexample to the claim as stated): build a registry with
ids 0,1,2,3 by four adds, delete id 2, add again — the returned id is 4,
not 2: the search starts at the persistent `last_chore_id` cursor
(already 3), which never decreases, so freed ids below it are not
reused. -/
theorem add_after_delete_does_not_reuse_id :
    (dictKeys ((add_new_chore (add_new_chore (add_new_chore (add_new_chore
        ⟨[], [], 0, none⟩ (Chore.mk "c" (some 2) (some "d") none 0 none 7) ⟨2025, 6, 1⟩).2
        (Chore.mk "c" (some 2) (some "d") none 0 none 7) ⟨2025, 6, 1⟩).2
        (Chore.mk "c" (some 2) (some "d") none 0 none 7) ⟨2025, 6, 1⟩).2
        (Chore.mk "c" (some 2) (some "d") none 0 none 7) ⟨2025, 6, 1⟩).2).chores = [0, 1, 2, 3]
      ∧
     dictKeys (deleteChore ((add_new_chore (add_new_chore (add_new_chore (add_new_chore
        ⟨[], [], 0, none⟩ (Chore.mk "c" (some 2) (some "d") none 0 none 7) ⟨2025, 6, 1⟩).2
        (Chore.mk "c" (some 2) (some "d") none 0 none 7) ⟨2025, 6, 1⟩).2
        (Chore.mk "c" (some 2) (some "d") none 0 none 7) ⟨2025, 6, 1⟩).2
        (Chore.mk "c" (some 2) (some "d") none 0 none 7) ⟨2025, 6, 1⟩).2) 2).1.chores = [0, 1, 3]
      ∧
     (add_new_chore (deleteChore ((add_new_chore (add_new_chore (add_new_chore (add_new_chore
        ⟨[], [], 0, none⟩ (Chore.mk "c" (some 2) (some "d") none 0 none 7) ⟨2025, 6, 1⟩).2
        (Chore.mk "c" (some 2) (some "d") none 0 none 7) ⟨2025, 6, 1⟩).2
        (Chore.mk "c" (some 2) (some "d") none 0 none 7) ⟨2025, 6, 1⟩).2
        (Chore.mk "c" (some 2) (some "d") none 0 none 7) ⟨2025, 6, 1⟩).2) 2).1
        (Chore.mk "c" (some 2) (some "d") none 0 none 7) ⟨2025, 6, 1⟩).1 = some 4
      ∧ (some 4 : Option Int) ≠ some 2) := by decide

/-- C2 (amended): `add_new_chore` assigns the smallest unused id that is
not below the stored `last_chore_id` cursor (not the smallest unused
non-negative id): the assigned id is free, at least the cursor, every id
between cursor and it is in use, the cursor advances to it, and it is
the id returned whenever the add completes. -/
theorem add_assigns_least_free_id_from_cursor (st : DailiesState) (c : Chore) (now : Date) :
    (add_new_chore st c now).2.last_chore_id
        = nextChoreId (dictKeys st.chores) st.last_chore_id ∧
    nextChoreId (dictKeys st.chores) st.last_chore_id ∉ dictKeys st.chores ∧
    st.last_chore_id ≤ nextChoreId (dictKeys st.chores) st.last_chore_id ∧
    (∀ m, st.last_chore_id ≤ m → m < nextChoreId (dictKeys st.chores) st.last_chore_id →
        m ∈ dictKeys st.chores) ∧
    ∀ j, (add_new_chore st c now).1 = some j →
        j = nextChoreId (dictKeys st.chores) st.last_chore_id := by
  obtain ⟨h1, h2, h3⟩ := nextChoreId_spec (dictKeys st.chores) st.last_chore_id
  have hlast : (add_new_chore st c now).2.last_chore_id
      = nextChoreId (dictKeys st.chores) st.last_chore_id := by
    unfold add_new_chore
    cases hc : c.date with
    | some d => rfl
    | none =>
      cases hcalc : c.calculate_next_date now none with
      | ok d => rfl
      | error e => rfl
  refine ⟨hlast, h2, h1, h3, ?_⟩
  intro j hj
  unfold add_new_chore at hj
  cases hc : c.date with
  | some d =>
    rw [hc] at hj
    dsimp only at hj
    injection hj with hj2
    exact hj2.symm
  | none =>
    rw [hc] at hj
    cases hcalc : c.calculate_next_date now none with
    | ok d =>
      rw [hcalc] at hj
      dsimp only at hj
      injection hj with hj2
      exact hj2.symm
    | error e =>
      rw [hcalc] at hj
      cases hj

theorem add_assigns_least_free_id_from_cursor_witness :
    (add_new_chore ⟨[(0, Chore.mk "c" (some 2) (some "d") none 0 none 7),
        (1, Chore.mk "c" (some 2) (some "d") none 0 none 7),
        (3, Chore.mk "c" (some 2) (some "d") none 0 none 7)], [], 3, none⟩
      (Chore.mk "c" (some 2) (some "d") none 0 none 7) ⟨2025, 6, 1⟩).2.last_chore_id
        = nextChoreId (dictKeys [(0, Chore.mk "c" (some 2) (some "d") none 0 none 7),
        (1, Chore.mk "c" (some 2) (some "d") none 0 none 7),
        (3, Chore.mk "c" (some 2) (some "d") none 0 none 7)]) 3 :=
  (add_assigns_least_free_id_from_cursor _ _ _).1

/-- C3 (code bug): with a pending occurrence for chore id 5, the delay
command with the malformed duration token `2x` does not produce the
user-facing "Invalid duration" reply: `parse_duration` returns no match
and `n, unit = parse_duration(args[2])` raises an uncaught `TypeError`
(the reply branch for a bad unit is unreachable).  The state is not
mutated before the raise. -/
theorem delay_malformed_duration_crashes :
    parse_duration "2x" = none ∧
    delayChore ⟨[(5, Chore.mk "c" (some 2) (some "d") none 0 none 7)],
        [(5, ⟨2025, 6, 2⟩)], 5, none⟩ "5" "2x" = .crash := by decide

/-- C7: sweep idempotence within one check cycle.  If a sweep at `now`
fired (advancing the cursor to the next day's reminder instant), then a
second invocation with the same `now` — which is before the new cursor
instant — returns early with `fired = false` and leaves the registry,
the pending occurrences and the cursor unchanged (and does not persist:
`save()` is only reached on a fired sweep). -/
theorem sweep_idempotent_within_cycle (cfg : DailiesConfig) (cursor : DateTime)
    (st : DailiesState) (now : DateTime) (c2 : DateTime) (st2 : DailiesState)
    (hsec0 : 0 ≤ now.time.secs) (hsec1 : now.time.secs < 86400)
    (hrt : 0 ≤ cfg.remind_time.secs) (hv : now.date.Valid)
    (hfired : remind_task cfg cursor st now = some (c2, st2, true)) :
    remind_task cfg c2 st2 now = some (c2, st2, false) := by
  unfold remind_task at hfired
  by_cases hch : cfg.discord_remind_channel = 0
  · rw [if_pos hch] at hfired
    simp at hfired
  · rw [if_neg hch] at hfired
    by_cases hlt : dtSecs now - dtSecs cursor < 0
    · rw [if_pos hlt] at hfired
      simp at hfired
    · rw [if_neg hlt] at hfired
      cases hcol : sweepCollect st.chores now.date st.upcoming_chores with
      | none => rw [hcol] at hfired; cases hfired
      | some ud =>
        rw [hcol] at hfired
        dsimp only at hfired
        injection hfired with h
        simp only [Prod.mk.injEq] at h
        obtain ⟨hc2, hst2, _⟩ := h
        subst hc2
        unfold remind_task
        rw [if_neg hch]
        have hguard : dtSecs now -
            dtSecs ⟨addDays now.date 1, cfg.remind_time⟩ < 0 := by
          unfold dtSecs
          dsimp only
          rw [toRD_addDays hv]
          omega
        rw [if_pos hguard]

/-! ### Dictionary lemmas for the store invariant -/

lemma mem_keys_dictInsert {α : Type} (k x : Int) (v : α) (l : List (Int × α)) :
    x ∈ dictKeys (dictInsert k v l) ↔ x = k ∨ x ∈ dictKeys l := by
  induction l with
  | nil => simp [dictInsert, dictKeys]
  | cons p rest ih =>
    obtain ⟨k2, v2⟩ := p
    unfold dictInsert
    by_cases h : k2 = k
    · subst h
      rw [if_pos rfl]
      simp [dictKeys]
    · rw [if_neg h]
      simp only [dictKeys, List.map_cons, List.mem_cons] at ih ⊢
      rw [ih]
      tauto

lemma nodup_keys_dictInsert {α : Type} (k : Int) (v : α) {l : List (Int × α)}
    (h : (dictKeys l).Nodup) : (dictKeys (dictInsert k v l)).Nodup := by
  induction l with
  | nil => simp [dictInsert, dictKeys]
  | cons p rest ih =>
    obtain ⟨k2, v2⟩ := p
    simp only [dictKeys, List.map_cons, List.nodup_cons] at h
    unfold dictInsert
    by_cases hk : k2 = k
    · subst hk
      rw [if_pos rfl]
      simp only [dictKeys, List.map_cons, List.nodup_cons]
      exact h
    · rw [if_neg hk]
      simp only [dictKeys, List.map_cons, List.nodup_cons]
      refine ⟨?_, ih h.2⟩
      intro hmem
      rcases (mem_keys_dictInsert k k2 v rest).mp hmem with h2 | h2
      · exact hk h2
      · exact h.1 h2

lemma dictErase_sublist {α : Type} (k : Int) (l : List (Int × α)) :
    (dictErase k l).Sublist l := by
  induction l with
  | nil => simp [dictErase]
  | cons p rest ih =>
    obtain ⟨k2, v2⟩ := p
    unfold dictErase
    by_cases h : k2 = k
    · rw [if_pos h]
      exact List.sublist_cons_self _ _
    · rw [if_neg h]
      exact List.Sublist.cons₂ _ ih

lemma keys_dictErase_sublist {α : Type} (k : Int) (l : List (Int × α)) :
    (dictKeys (dictErase k l)).Sublist (dictKeys l) :=
  (dictErase_sublist k l).map Prod.fst

lemma nodup_keys_dictErase {α : Type} (k : Int) {l : List (Int × α)}
    (h : (dictKeys l).Nodup) : (dictKeys (dictErase k l)).Nodup :=
  (keys_dictErase_sublist k l).nodup h

lemma dictKeys_cons {α : Type} (p : Int × α) (l : List (Int × α)) :
    dictKeys (p :: l) = p.1 :: dictKeys l := rfl

lemma mem_keys_dictErase_iff {α : Type} (k x : Int) {l : List (Int × α)}
    (h : (dictKeys l).Nodup) :
    x ∈ dictKeys (dictErase k l) ↔ x ∈ dictKeys l ∧ x ≠ k := by
  induction l with
  | nil => simp [dictErase, dictKeys]
  | cons p rest ih =>
    obtain ⟨k2, v2⟩ := p
    rw [dictKeys_cons, List.nodup_cons] at h
    unfold dictErase
    by_cases hk : k2 = k
    · subst hk
      rw [if_pos rfl, dictKeys_cons, List.mem_cons]
      constructor
      · intro hx
        exact ⟨Or.inr hx, fun he => h.1 (he ▸ hx)⟩
      · rintro ⟨hx | hx, hne⟩
        · exact absurd hx hne
        · exact hx
    · rw [if_neg hk, dictKeys_cons, dictKeys_cons, List.mem_cons, List.mem_cons, ih h.2]
      constructor
      · rintro (rfl | ⟨hx, hne⟩)
        · exact ⟨Or.inl rfl, fun he => hk he⟩
        · exact ⟨Or.inr hx, hne⟩
      · rintro ⟨rfl | hx, hne⟩
        · exact Or.inl rfl
        · exact Or.inr ⟨hx, hne⟩

lemma dictGet_isSome_iff {α : Type} (k : Int) (l : List (Int × α)) :
    (dictGet k l).isSome ↔ k ∈ dictKeys l := by
  induction l with
  | nil => simp [dictGet, dictKeys]
  | cons p rest ih =>
    obtain ⟨k2, v2⟩ := p
    unfold dictGet
    by_cases h : k2 = k
    · subst h
      rw [if_pos rfl]
      simp [dictKeys]
    · rw [if_neg h]
      simp only [dictKeys, List.map_cons, List.mem_cons]
      rw [ih]
      simp [dictKeys]
      tauto

lemma dictGet_some_mem {α : Type} {k : Int} {v : α} {l : List (Int × α)}
    (h : dictGet k l = some v) : k ∈ dictKeys l :=
  (dictGet_isSome_iff k l).mp (by rw [h]; rfl)

lemma mem_foldl_dictErase_iff {α : Type} (del : List Int) (x : Int) :
    ∀ (l : List (Int × α)), (dictKeys l).Nodup →
      (x ∈ dictKeys (del.foldl (fun acc cid => dictErase cid acc) l) ↔
        x ∈ dictKeys l ∧ x ∉ del) := by
  induction del with
  | nil => intro l _; simp
  | cons d del ih =>
    intro l hl
    rw [List.foldl_cons, ih (dictErase d l) (nodup_keys_dictErase d hl),
      mem_keys_dictErase_iff d x hl]
    simp only [List.mem_cons]
    tauto

lemma nodup_foldl_dictErase {α : Type} (del : List Int) :
    ∀ (l : List (Int × α)), (dictKeys l).Nodup →
      (dictKeys (del.foldl (fun acc cid => dictErase cid acc) l)).Nodup := by
  induction del with
  | nil => intro l hl; exact hl
  | cons d del ih =>
    intro l hl
    exact ih _ (nodup_keys_dictErase d hl)

lemma mem_foldl_dictInsert_iff {α : Type} (upd : List (Int × α)) (x : Int) :
    ∀ (l : List (Int × α)),
      (x ∈ dictKeys (upd.foldl (fun acc p => dictInsert p.1 p.2 acc) l) ↔
        x ∈ upd.map Prod.fst ∨ x ∈ dictKeys l) := by
  induction upd with
  | nil => intro l; simp
  | cons p upd ih =>
    intro l
    rw [List.foldl_cons, ih (dictInsert p.1 p.2 l)]
    rw [mem_keys_dictInsert]
    simp only [List.map_cons, List.mem_cons]
    tauto

lemma nodup_foldl_dictInsert {α : Type} (upd : List (Int × α)) :
    ∀ (l : List (Int × α)), (dictKeys l).Nodup →
      (dictKeys (upd.foldl (fun acc p => dictInsert p.1 p.2 acc) l)).Nodup := by
  induction upd with
  | nil => intro l hl; exact hl
  | cons p upd ih =>
    intro l hl
    exact ih _ (nodup_keys_dictInsert p.1 p.2 hl)

lemma sweepCollect_keys (chores : List (Int × Chore)) (today : Date) :
    ∀ (upc : List (Int × Date)) (upd : List (Int × Date)) (del : List Int),
      sweepCollect chores today upc = some (upd, del) →
      (∀ x ∈ upd.map Prod.fst, x ∈ dictKeys upc) ∧ (∀ x ∈ del, x ∈ dictKeys upc) := by
  intro upc
  induction upc with
  | nil =>
    intro upd del h
    unfold sweepCollect at h
    injection h with h2
    simp only [Prod.mk.injEq] at h2
    obtain ⟨h3, h4⟩ := h2
    subst h3; subst h4
    simp
  | cons p rest ih =>
    obtain ⟨cid, date⟩ := p
    intro upd del h
    unfold sweepCollect at h
    by_cases hdue : dateSub date today ≤ 0
    · rw [if_pos hdue] at h
      cases hget : dictGet cid chores with
      | none => rw [hget] at h; cases h
      | some chore =>
        rw [hget] at h
        dsimp only at h
        cases hrec : sweepCollect chores today rest with
        | none => rw [hrec] at h; cases h
        | some ud =>
          rw [hrec] at h
          dsimp only at h
          obtain ⟨ih1, ih2⟩ := ih ud.1 ud.2 (by rw [hrec])
          cases hcd : chore.date with
          | none =>
            rw [hcd] at h
            cases hcalc : chore.calculate_next_date today (some date) with
            | error e => rw [hcalc] at h; cases h
            | ok nd =>
              rw [hcalc] at h
              injection h with h2
              simp only [Prod.mk.injEq] at h2
              obtain ⟨h3, h4⟩ := h2
              subst h3; subst h4
              constructor
              · intro x hx
                rw [List.map_cons, List.mem_cons] at hx
                rcases hx with rfl | hx
                · exact List.mem_cons_self _ _
                · exact List.mem_cons_of_mem _ (ih1 x hx)
              · intro x hx
                exact List.mem_cons_of_mem _ (ih2 x hx)
          | some d0 =>
            rw [hcd] at h
            injection h with h2
            simp only [Prod.mk.injEq] at h2
            obtain ⟨h3, h4⟩ := h2
            subst h3; subst h4
            constructor
            · intro x hx
              exact List.mem_cons_of_mem _ (ih1 x hx)
            · intro x hx
              rw [List.mem_cons] at hx
              rcases hx with rfl | hx
              · exact List.mem_cons_self _ _
              · exact List.mem_cons_of_mem _ (ih2 x hx)
    · rw [if_neg hdue] at h
      obtain ⟨ih1, ih2⟩ := ih upd del h
      exact ⟨fun x hx => List.mem_cons_of_mem _ (ih1 x hx),
             fun x hx => List.mem_cons_of_mem _ (ih2 x hx)⟩

/-- The occurrence-store invariant: chore keys and occurrence keys are
duplicate-free (each chore has at most one pending occurrence) and every
pending occurrence refers to a chore present in the registry. -/
def StateInv (st : DailiesState) : Prop :=
  (dictKeys st.chores).Nodup ∧ (dictKeys st.upcoming_chores).Nodup ∧
  ∀ k ∈ dictKeys st.upcoming_chores, k ∈ dictKeys st.chores

instance (st : DailiesState) : Decidable (StateInv st) := by
  unfold StateInv; infer_instance

/-- C9: the occurrence-store invariant is preserved by every mutating
operation: adding a chore (also on the exception path, where the chore
map is mutated but no occurrence is stored), deleting a chore, every
reply of the delay command, and every completed sweep. -/
theorem store_invariant_preserved (st : DailiesState) (hinv : StateInv st) :
    (∀ c now, StateInv (add_new_chore st c now).2) ∧
    (∀ cid, StateInv (deleteChore st cid).1) ∧
    (∀ idTok durTok msg st2, delayChore st idTok durTok = .reply msg st2 → StateInv st2) ∧
    (∀ cfg cursor now c2 st2 b, remind_task cfg cursor st now = some (c2, st2, b) →
        StateInv st2) := by
  obtain ⟨hn1, hn2, hmem⟩ := hinv
  have hins : ∀ (cid : Int) (c : Chore) (d : Date),
      StateInv
        { st with
          chores := dictInsert cid c st.chores
          last_chore_id := cid
          upcoming_chores := dictInsert cid d st.upcoming_chores } := by
    intro cid c d
    refine ⟨nodup_keys_dictInsert _ _ hn1, nodup_keys_dictInsert _ _ hn2, ?_⟩
    intro k hk
    rcases (mem_keys_dictInsert _ _ _ _).mp hk with rfl | hk2
    · exact (mem_keys_dictInsert _ _ _ _).mpr (Or.inl rfl)
    · exact (mem_keys_dictInsert _ _ _ _).mpr (Or.inr (hmem k hk2))
  refine ⟨?_, ?_, ?_, ?_⟩
  · intro c now
    unfold add_new_chore
    cases hc : c.date with
    | some d => exact hins _ _ _
    | none =>
      cases hcalc : c.calculate_next_date now none with
      | ok d => exact hins _ _ _
      | error e =>
        refine ⟨nodup_keys_dictInsert _ _ hn1, hn2, ?_⟩
        intro k hk
        exact (mem_keys_dictInsert _ _ _ _).mpr (Or.inr (hmem k hk))
  · intro cid
    unfold deleteChore
    by_cases hfound : (dictGet cid st.chores).isSome
    · rw [if_pos hfound]
      by_cases hup : (dictGet cid st.upcoming_chores).isSome
      · rw [if_pos hup]
        refine ⟨nodup_keys_dictErase _ hn1, nodup_keys_dictErase _ hn2, ?_⟩
        intro k hk
        obtain ⟨hk1, hk2⟩ := (mem_keys_dictErase_iff _ _ hn2).mp hk
        exact (mem_keys_dictErase_iff _ _ hn1).mpr ⟨hmem k hk1, hk2⟩
      · rw [if_neg hup]
        refine ⟨nodup_keys_dictErase _ hn1, hn2, ?_⟩
        intro k hk
        have hkne : k ≠ cid := by
          intro he
          subst he
          exact hup ((dictGet_isSome_iff _ _).mpr hk)
        exact (mem_keys_dictErase_iff _ _ hn1).mpr ⟨hmem k hk, hkne⟩
    · rw [if_neg hfound]
      exact ⟨hn1, hn2, hmem⟩
  · intro idTok durTok msg st2 h
    unfold delayChore at h
    cases hpid : pyParseInt? idTok.data with
    | none =>
      rw [hpid] at h
      injection h with h1 h2
      rw [← h2]
      exact ⟨hn1, hn2, hmem⟩
    | some cid =>
      rw [hpid] at h
      dsimp only at h
      cases hup : dictGet cid st.upcoming_chores with
      | none =>
        rw [hup] at h
        injection h with h1 h2
        rw [← h2]
        exact ⟨hn1, hn2, hmem⟩
      | some rd =>
        rw [hup] at h
        dsimp only at h
        cases hch : dictGet cid st.chores with
        | none => rw [hch] at h; cases h
        | some chore =>
          rw [hch] at h
          dsimp only at h
          cases hdur : parse_duration durTok with
          | none => rw [hdur] at h; cases h
          | some nu =>
            rw [hdur] at h
            dsimp only at h
            have hcidmem : cid ∈ dictKeys st.chores := dictGet_some_mem hch
            have hinv2 : ∀ (nd : Date),
                StateInv { st with upcoming_chores := dictInsert cid nd st.upcoming_chores } := by
              intro nd
              refine ⟨hn1, nodup_keys_dictInsert _ _ hn2, ?_⟩
              intro k hk
              rcases (mem_keys_dictInsert _ _ _ _).mp hk with rfl | hk2
              · exact hcidmem
              · exact hmem k hk2
            by_cases hd : nu.2 = "d"
            · rw [if_pos hd] at h
              injection h with h1 h2
              rw [← h2]
              exact hinv2 _
            · rw [if_neg hd] at h
              by_cases hw : nu.2 = "w"
              · rw [if_pos hw] at h
                injection h with h1 h2
                rw [← h2]
                exact hinv2 _
              · rw [if_neg hw] at h
                by_cases hm : nu.2 = "m"
                · rw [if_pos hm] at h
                  split at h
                  · injection h with h1 h2
                    rw [← h2]
                    exact hinv2 _
                  · cases h
                · rw [if_neg hm] at h
                  injection h with h1 h2
                  rw [← h2]
                  exact ⟨hn1, hn2, hmem⟩
  · intro cfg cursor now c2 st2 b h
    unfold remind_task at h
    by_cases hch0 : cfg.discord_remind_channel = 0
    · rw [if_pos hch0] at h
      injection h with h2
      simp only [Prod.mk.injEq] at h2
      obtain ⟨h3, h4, h5⟩ := h2
      rw [← h4]
      exact ⟨hn1, hn2, hmem⟩
    · rw [if_neg hch0] at h
      by_cases hlt : dtSecs now - dtSecs cursor < 0
      · rw [if_pos hlt] at h
        injection h with h2
        simp only [Prod.mk.injEq] at h2
        obtain ⟨h3, h4, h5⟩ := h2
        rw [← h4]
        exact ⟨hn1, hn2, hmem⟩
      · rw [if_neg hlt] at h
        cases hcol : sweepCollect st.chores now.date st.upcoming_chores with
        | none => rw [hcol] at h; cases h
        | some ud =>
          rw [hcol] at h
          dsimp only at h
          injection h with h2
          simp only [Prod.mk.injEq] at h2
          obtain ⟨h3, h4, h5⟩ := h2
          rw [← h4]
          obtain ⟨hupdk, hdelk⟩ :=
            sweepCollect_keys st.chores now.date st.upcoming_chores ud.1 ud.2 (by rw [hcol])
          have hupc1nodup := nodup_foldl_dictInsert ud.1 st.upcoming_chores hn2
          refine ⟨nodup_foldl_dictErase ud.2 _ hn1, nodup_foldl_dictErase ud.2 _ hupc1nodup, ?_⟩
          intro k hk
          obtain ⟨hk1, hk2⟩ := (mem_foldl_dictErase_iff ud.2 k _ hupc1nodup).mp hk
          have hk3 : k ∈ dictKeys st.upcoming_chores := by
            rcases (mem_foldl_dictInsert_iff ud.1 k st.upcoming_chores).mp hk1 with hx | hx
            · exact hupdk k hx
            · exact hx
          exact (mem_foldl_dictErase_iff ud.2 k st.chores hn1).mpr ⟨hmem k hk3, hk2⟩

theorem store_invariant_preserved_witness :
    StateInv ⟨[(0, Chore.mk "c" (some 2) (some "d") none 0 none 7)],
        [(0, ⟨2025, 6, 2⟩)], 1, none⟩ ∧
    StateInv (deleteChore ⟨[(0, Chore.mk "c" (some 2) (some "d") none 0 none 7)],
        [(0, ⟨2025, 6, 2⟩)], 1, none⟩ 0).1 :=
  ⟨by decide,
   (store_invariant_preserved _ (by decide)).2.1 0⟩

theorem sweep_idempotent_within_cycle_witness :
    remind_task ⟨1, ⟨9, 0, 0⟩⟩ ⟨⟨2025, 6, 2⟩, ⟨9, 0, 0⟩⟩
      ⟨[(0, Chore.mk "c" (some 2) (some "d") none 0 none 7)],
       [(0, ⟨2025, 6, 3⟩)], 1, some ⟨2025, 6, 2⟩⟩ ⟨⟨2025, 6, 1⟩, ⟨9, 5, 0⟩⟩
    = some (⟨⟨2025, 6, 2⟩, ⟨9, 0, 0⟩⟩,
        ⟨[(0, Chore.mk "c" (some 2) (some "d") none 0 none 7)],
         [(0, ⟨2025, 6, 3⟩)], 1, some ⟨2025, 6, 2⟩⟩, false) :=
  sweep_idempotent_within_cycle ⟨1, ⟨9, 0, 0⟩⟩ ⟨⟨2025, 6, 1⟩, ⟨9, 0, 0⟩⟩
    ⟨[(0, Chore.mk "c" (some 2) (some "d") none 0 none 7)], [(0, ⟨2025, 6, 1⟩)], 1, none⟩
    ⟨⟨2025, 6, 1⟩, ⟨9, 5, 0⟩⟩ _ _ (by decide) (by decide) (by decide) (by decide) (by decide)

/-! ## Serialization (DailiesState.serialize / deserialize, chore.to_json,
parse_chore_from_json) -/

/-- Decimal digit characters of `n`, most significant first: the
unpadded decimal rendering used for the year field of
`strftime("%Y/%m/%d")` (four digits for the years Python dates can
hold beyond 999). -/
def natToChars (n : Nat) : List Char :=
  (Nat.digits 10 n).reverse.map (fun k => Char.ofNat (48 + k))

/-- Two-digit zero-padded rendering (`%m`, `%d`). -/
def pad2 (n : Nat) : List Char :=
  if n < 10 then '0' :: natToChars n else natToChars n

/-- `date.strftime("%Y/%m/%d")` (the module-wide `DATE_FORMAT`). -/
def formatDate (d : Date) : String :=
  String.mk (natToChars d.year.toNat ++ '/' :: (pad2 d.month.toNat ++ '/' :: pad2 d.day.toNat))

lemma charOfNat_digit_toNat : ∀ k, k < 10 → (Char.ofNat (48 + k)).toNat - 48 = k := by decide

lemma charOfNat_digit_isDigit : ∀ k, k < 10 → (Char.ofNat (48 + k)).isDigit = true := by decide

lemma foldl_digitChars : ∀ (l : List Nat), (∀ x ∈ l, x < 10) → ∀ (a : Nat),
    List.foldl (fun acc c => 10 * acc + (c.toNat - 48)) a
        (l.reverse.map (fun k => Char.ofNat (48 + k)))
      = a * 10 ^ l.length + Nat.ofDigits 10 l := by
  intro l
  induction l with
  | nil =>
    intro _ a
    simp [Nat.ofDigits]
  | cons d t ih =>
    intro hl a
    have hd : d < 10 := hl d (by simp)
    have ht : ∀ x ∈ t, x < 10 := fun x hx => hl x (by simp [hx])
    rw [List.reverse_cons, List.map_append, List.foldl_append, ih ht a]
    simp only [List.map_cons, List.map_nil, List.foldl_cons, List.foldl_nil,
      charOfNat_digit_toNat d hd, Nat.ofDigits_cons, List.length_cons, pow_succ]
    ring

lemma natToChars_isDigit (n : Nat) : ∀ c ∈ natToChars n, c.isDigit = true := by
  intro c hc
  unfold natToChars at hc
  rw [List.mem_map] at hc
  obtain ⟨k, hk, rfl⟩ := hc
  exact charOfNat_digit_isDigit k (Nat.digits_lt_base (by norm_num) (List.mem_reverse.mp hk))

lemma charsToNat_natToChars (n : Nat) : charsToNat (natToChars n) = n := by
  unfold charsToNat natToChars
  rw [foldl_digitChars (Nat.digits 10 n)
    (fun x hx => Nat.digits_lt_base (by norm_num) hx) 0]
  simp [Nat.ofDigits_digits]

lemma natToChars_ne_nil {n : Nat} (h : n ≠ 0) : natToChars n ≠ [] := by
  unfold natToChars
  simp [Nat.digits_ne_nil_iff_ne_zero.mpr h]

lemma natToChars_length_le {n k : Nat} (h : n < 10 ^ k) : (natToChars n).length ≤ k := by
  unfold natToChars
  rw [List.length_map, List.length_reverse]
  rcases Nat.eq_zero_or_pos n with rfl | hn
  · simp
  · have hle := Nat.base_pow_length_digits_le 10 n (by norm_num) (by omega)
    by_contra hgt
    push_neg at hgt
    have h1 : 10 ^ (k + 1) ≤ 10 ^ (Nat.digits 10 n).length :=
      Nat.pow_le_pow_right (by norm_num) hgt
    have h2 : 10 * n < 10 * 10 ^ k := by omega
    rw [← pow_succ'] at h2
    omega

lemma natToChars_length_eq4 {n : Nat} (h1 : 1000 ≤ n) (h2 : n ≤ 9999) :
    (natToChars n).length = 4 := by
  have hle : (natToChars n).length ≤ 4 := natToChars_length_le (by omega)
  have hlt : n < 10 ^ (Nat.digits 10 n).length :=
    Nat.lt_base_pow_length_digits (by norm_num)
  have hlen : (natToChars n).length = (Nat.digits 10 n).length := by
    unfold natToChars
    rw [List.length_map, List.length_reverse]
  by_contra hne
  have h3 : (Nat.digits 10 n).length ≤ 3 := by omega
  have h4 : 10 ^ (Nat.digits 10 n).length ≤ 10 ^ 3 :=
    Nat.pow_le_pow_right (by norm_num) h3
  omega

lemma pad2_isDigit (n : Nat) : ∀ c ∈ pad2 n, c.isDigit = true := by
  intro c hc
  unfold pad2 at hc
  split at hc
  · rcases List.mem_cons.mp hc with rfl | hc2
    · decide
    · exact natToChars_isDigit n c hc2
  · exact natToChars_isDigit n c hc

lemma pad2_ne_nil (n : Nat) : pad2 n ≠ [] := by
  unfold pad2
  split
  · simp
  · exact natToChars_ne_nil (by omega)

lemma pad2_length_le {n : Nat} (h : n < 100) : (pad2 n).length ≤ 2 := by
  unfold pad2
  split
  · rw [List.length_cons]
    have : (natToChars n).length ≤ 1 := natToChars_length_le (by omega)
    omega
  · exact natToChars_length_le (by omega)

lemma charsToNat_pad2 (n : Nat) : charsToNat (pad2 n) = n := by
  unfold pad2
  split
  · show charsToNat ('0' :: natToChars n) = n
    unfold charsToNat
    rw [List.foldl_cons]
    have h0 : 10 * 0 + ('0'.toNat - 48) = 0 := by decide
    rw [h0]
    exact charsToNat_natToChars n
  · exact charsToNat_natToChars n

lemma takeDigits_append : ∀ (ds : List Char) (fuel : Nat) (rest : List Char),
    (∀ c ∈ ds, c.isDigit = true) → ds.length ≤ fuel →
    (∀ c, rest.head? = some c → c.isDigit = false) →
    takeDigits fuel (ds ++ rest) = (ds, rest) := by
  intro ds
  induction ds with
  | nil =>
    intro fuel rest _ _ hrest
    cases fuel with
    | zero => rfl
    | succ f =>
      cases rest with
      | nil => rfl
      | cons c r =>
        have hc := hrest c rfl
        simp [takeDigits, hc]
  | cons d t ih =>
    intro fuel rest hds hlen hrest
    cases fuel with
    | zero => simp at hlen
    | succ f =>
      have hd : d.isDigit = true := hds d (by simp)
      have hrec := ih f rest (fun c hc => hds c (by simp [hc])) (by simp at hlen; omega) hrest
      simp [takeDigits, hd, hrec]

/-- Parsing the formatted date recovers the date, for every valid date
with a four-digit year: `strftime` renders smaller years unpadded, and
`strptime`'s four-digit `%Y` then rejects the result on reload, so the
round trip genuinely holds only from year 1000 on. -/
lemma parseYMD_formatDate {d : Date} (hv : d.Valid) (hy1 : 1000 ≤ d.year)
    (hy2 : d.year ≤ 9999) : parseYMD '/' (formatDate d) = some d := by
  obtain ⟨hm1, hm2, hd1, hd2⟩ := hv
  have hdm := daysInMonth_bounds (y := d.year) (m := d.month) hm1 hm2
  have hlen4 : (natToChars d.year.toNat).length = 4 :=
    natToChars_length_eq4 (by omega) (by omega)
  have htake1 : takeDigits 4 (natToChars d.year.toNat ++
      '/' :: (pad2 d.month.toNat ++ '/' :: pad2 d.day.toNat))
      = (natToChars d.year.toNat, '/' :: (pad2 d.month.toNat ++ '/' :: pad2 d.day.toNat)) :=
    takeDigits_append _ 4 _ (natToChars_isDigit _)
      (natToChars_length_le (by omega)) (by intro c hc; injection hc with hc; rw [← hc]; decide)
  have htake2 : takeDigits 2 (pad2 d.month.toNat ++ '/' :: pad2 d.day.toNat)
      = (pad2 d.month.toNat, '/' :: pad2 d.day.toNat) :=
    takeDigits_append _ 2 _ (pad2_isDigit _)
      (pad2_length_le (by omega)) (by intro c hc; injection hc with hc; rw [← hc]; decide)
  have htake3 : takeDigits 2 (pad2 d.day.toNat) = (pad2 d.day.toNat, []) := by
    have := takeDigits_append (pad2 d.day.toNat) 2 [] (pad2_isDigit _)
      (pad2_length_le (by omega)) (by intro c hc; cases hc)
    rwa [List.append_nil] at this
  unfold parseYMD formatDate
  show (let p1 := takeDigits 4 (natToChars d.year.toNat ++
      '/' :: (pad2 d.month.toNat ++ '/' :: pad2 d.day.toNat)); _) = some d
  rw [htake1]
  dsimp only
  rw [if_neg (fun h => h hlen4)]
  rw [if_pos rfl, htake2]
  cases hms : pad2 d.month.toNat with
  | nil => exact absurd hms (pad2_ne_nil _)
  | cons m0 mtl =>
    dsimp only
    rw [if_pos rfl, htake3]
    rw [if_pos ⟨pad2_ne_nil d.day.toNat, rfl⟩]
    unfold mkDateChecked
    rw [← hms]
    rw [charsToNat_natToChars, charsToNat_pad2, charsToNat_pad2]
    have heq : (Date.mk d.year.toNat d.month.toNat d.day.toNat) = d := by
      have e1 : (d.year.toNat : Int) = d.year := Int.toNat_of_nonneg (by omega)
      have e2 : (d.month.toNat : Int) = d.month := Int.toNat_of_nonneg (by omega)
      have e3 : (d.day.toNat : Int) = d.day := Int.toNat_of_nonneg (by omega)
      cases d
      simp only at e1 e2 e3 ⊢
      rw [e1, e2, e3]
    rw [heq]
    rw [if_pos ⟨⟨hm1, hm2, hd1, hd2⟩, by omega, by omega⟩]

/-- The dict `Chore.to_json` produces (the `date` key is always
present, `None` for recurring chores). -/
structure ChoreJson where
  title : String
  interval : Option Int
  unit : Option String
  weekday : Option String
  monthdays : Int
  date : Option String
  user : Int
deriving DecidableEq, Repr

/-- `Chore.to_json`. -/
def Chore.to_json (c : Chore) : ChoreJson :=
  { title := c.title, interval := c.interval, unit := c.unit, weekday := c.weekday,
    monthdays := c.monthdays, date := c.date.map formatDate, user := c.user }

/-- `parse_chore_from_json`: reads every field back, parsing the date
with `strptime(_, DATE_FORMAT)` when present (`none` on a malformed
date string, where Python would raise). -/
def parse_chore_from_json (obj : ChoreJson) : Option Chore :=
  match obj.date with
  | none =>
    some (Chore.mk obj.title obj.interval obj.unit obj.weekday obj.monthdays none obj.user)
  | some ds =>
    match parseYMD '/' ds with
    | none => none
    | some dt =>
      some (Chore.mk obj.title obj.interval obj.unit obj.weekday obj.monthdays (some dt) obj.user)

/-- The persisted state document of `DailiesState.serialize`. -/
structure StateJson where
  chores : List (Int × ChoreJson)
  upcoming_chores : List (Int × String)
  last_chore_id : Int
  next_remind_date : Option String
deriving DecidableEq, Repr

/-- `DailiesState.serialize`. -/
def DailiesState.serialize (st : DailiesState) : StateJson :=
  { chores := st.chores.map (fun p => (p.1, p.2.to_json)),
    upcoming_chores := st.upcoming_chores.map (fun p => (p.1, formatDate p.2)),
    last_chore_id := st.last_chore_id,
    next_remind_date := st.next_remind_date.map formatDate }

/-- The chore-loading loop of `DailiesState.deserialize`
(`self.chores[entry["id"]] = parse_chore_from_json(entry["chore"])`). -/
def loadChores : List (Int × ChoreJson) → List (Int × Chore) → Option (List (Int × Chore))
  | [], acc => some acc
  | (k, cj) :: rest, acc =>
    match parse_chore_from_json cj with
    | none => none
    | some c => loadChores rest (dictInsert k c acc)

/-- The occurrence-loading loop of `DailiesState.deserialize`. -/
def loadUpcoming : List (Int × String) → List (Int × Date) → Option (List (Int × Date))
  | [], acc => some acc
  | (k, ds) :: rest, acc =>
    match parseYMD '/' ds with
    | none => none
    | some dt => loadUpcoming rest (dictInsert k dt acc)

/-- `DailiesState.deserialize`: clear both dicts, reload every entry,
read the cursor date (`none` result on any date Python's `strptime`
would reject). -/
def DailiesState.deserialize (obj : StateJson) : Option DailiesState :=
  match loadChores obj.chores [] with
  | none => none
  | some cs =>
    match loadUpcoming obj.upcoming_chores [] with
    | none => none
    | some ups =>
      match obj.next_remind_date with
      | none => some ⟨cs, ups, obj.last_chore_id, none⟩
      | some ds =>
        match parseYMD '/' ds with
        | none => none
        | some dt => some ⟨cs, ups, obj.last_chore_id, some dt⟩

/-- A date the persistence layer round-trips: valid, with a four-digit
year (the `strftime`/`strptime` pair loses years below 1000). -/
def GoodDate (d : Date) : Prop := d.Valid ∧ 1000 ≤ d.year ∧ d.year ≤ 9999

instance (d : Date) : Decidable (GoodDate d) := by
  unfold GoodDate; infer_instance

lemma chore_roundtrip {c : Chore} (h : ∀ d, c.date = some d → GoodDate d) :
    parse_chore_from_json c.to_json = some c := by
  obtain ⟨t, iv, u, w, md, dt, us⟩ := c
  cases dt with
  | none => rfl
  | some d =>
    obtain ⟨hv, hy1, hy2⟩ := h d rfl
    unfold Chore.to_json parse_chore_from_json
    dsimp only [Option.map]
    rw [parseYMD_formatDate hv hy1 hy2]

lemma dictInsert_of_not_mem {α : Type} (k : Int) (v : α) :
    ∀ (l : List (Int × α)), k ∉ dictKeys l → dictInsert k v l = l ++ [(k, v)] := by
  intro l
  induction l with
  | nil => intro _; rfl
  | cons p rest ih =>
    intro h
    obtain ⟨k2, v2⟩ := p
    rw [dictKeys_cons, List.mem_cons] at h
    push_neg at h
    unfold dictInsert
    rw [if_neg (fun he => h.1 he.symm), ih h.2]
    rfl

lemma foldl_dictInsert_fresh {α : Type} :
    ∀ (l acc : List (Int × α)), (dictKeys (acc ++ l)).Nodup →
      l.foldl (fun a p => dictInsert p.1 p.2 a) acc = acc ++ l := by
  intro l
  induction l with
  | nil => intro acc _; simp
  | cons p t ih =>
    intro acc hnd
    obtain ⟨k, v⟩ := p
    have hkeys : dictKeys (acc ++ (k, v) :: t) = dictKeys acc ++ k :: dictKeys t := by
      unfold dictKeys
      rw [List.map_append, List.map_cons]
    rw [hkeys, List.nodup_append] at hnd
    have hknotacc : k ∉ dictKeys acc := fun hmem =>
      hnd.2.2 hmem (List.mem_cons_self _ _)
    rw [List.foldl_cons]
    have hstep : dictInsert k v acc = acc ++ [(k, v)] := dictInsert_of_not_mem k v acc hknotacc
    rw [hstep]
    have : acc ++ [(k, v)] ++ t = acc ++ (k, v) :: t := by simp
    rw [ih (acc ++ [(k, v)]) (by rw [this, hkeys, List.nodup_append]; exact hnd), this]

lemma loadChores_map :
    ∀ (l : List (Int × Chore)) (acc : List (Int × Chore)),
      (∀ p ∈ l, ∀ d, p.2.date = some d → GoodDate d) →
      loadChores (l.map (fun p => (p.1, p.2.to_json))) acc
        = some (l.foldl (fun a p => dictInsert p.1 p.2 a) acc) := by
  intro l
  induction l with
  | nil => intro acc _; rfl
  | cons p t ih =>
    intro acc h
    obtain ⟨k, c⟩ := p
    rw [List.map_cons]
    unfold loadChores
    rw [chore_roundtrip (fun d hd => h (k, c) (by simp) d hd)]
    exact ih (dictInsert k c acc) (fun q hq d hd => h q (by simp [hq]) d hd)

lemma loadUpcoming_map :
    ∀ (l : List (Int × Date)) (acc : List (Int × Date)),
      (∀ p ∈ l, GoodDate p.2) →
      loadUpcoming (l.map (fun p => (p.1, formatDate p.2))) acc
        = some (l.foldl (fun a p => dictInsert p.1 p.2 a) acc) := by
  intro l
  induction l with
  | nil => intro acc _; rfl
  | cons p t ih =>
    intro acc h
    obtain ⟨k, d⟩ := p
    rw [List.map_cons]
    unfold loadUpcoming
    obtain ⟨hv, hy1, hy2⟩ := h (k, d) (by simp)
    rw [parseYMD_formatDate hv hy1 hy2]
    exact ih (dictInsert k d acc) (fun q hq => h q (by simp [hq]))

/-- C8 (counterexample to the claim as stated): a snapshot holding a
date before year 1000 does not survive the round trip.  `strftime`
renders year 45 unpadded as `45/06/02`, but `strptime`'s `%Y` field
requires exactly four digits, so deserializing the serialized snapshot
raises (here: `none`) instead of returning the original state. -/
theorem roundtrip_fails_below_year_1000 :
    DailiesState.deserialize
        (DailiesState.serialize ⟨[], [], 0, some ⟨45, 6, 2⟩⟩) = none ∧
    (none : Option DailiesState) ≠ some ⟨[], [], 0, some ⟨45, 6, 2⟩⟩ := by
  constructor
  · have h45 : Nat.digits 10 45 = [5, 4] := by norm_num [Nat.digits_def']
    have h6 : Nat.digits 10 6 = [6] := by norm_num [Nat.digits_def']
    have h2 : Nat.digits 10 2 = [2] := by norm_num [Nat.digits_def']
    have hn45 : natToChars 45 = ['4', '5'] := by
      simp only [natToChars, h45]
      decide
    have hp6 : pad2 6 = ['0', '6'] := by
      simp only [pad2, natToChars, h6]
      decide
    have hp2 : pad2 2 = ['0', '2'] := by
      simp only [pad2, natToChars, h2]
      decide
    have hfmt : formatDate ⟨45, 6, 2⟩ = "45/06/02" := by
      show String.mk (natToChars 45 ++ '/' :: (pad2 6 ++ '/' :: pad2 2)) = "45/06/02"
      rw [hn45, hp6, hp2]
      rfl
    have hser : DailiesState.serialize ⟨[], [], 0, some ⟨45, 6, 2⟩⟩
        = ⟨[], [], 0, some "45/06/02"⟩ := by
      unfold DailiesState.serialize
      show (⟨[], [], 0, some (formatDate ⟨45, 6, 2⟩)⟩ : StateJson) = ⟨[], [], 0, some "45/06/02"⟩
      rw [hfmt]
    rw [hser]
    decide
  · decide

/-- C8 (amended): serializing then deserializing a state snapshot
yields a state equal in all fields to the original, for every state
whose stored dates are valid Python dates with four-digit years
(1000-9999) — the range outside which the unpadded `%Y` output of
`strftime` is rejected by `strptime` on reload.  The dict key lists are
duplicate-free, as they are for any state the operations produce. -/
theorem state_serialize_roundtrip (st : DailiesState)
    (hn1 : (dictKeys st.chores).Nodup) (hn2 : (dictKeys st.upcoming_chores).Nodup)
    (hcd : ∀ p ∈ st.chores, ∀ d, p.2.date = some d → GoodDate d)
    (hud : ∀ p ∈ st.upcoming_chores, GoodDate p.2)
    (hrd : ∀ d, st.next_remind_date = some d → GoodDate d) :
    DailiesState.deserialize st.serialize = some st := by
  obtain ⟨cs, ups, lid, nrd⟩ := st
  unfold DailiesState.serialize DailiesState.deserialize
  dsimp only at hn1 hn2 hcd hud hrd ⊢
  rw [loadChores_map cs [] hcd]
  rw [foldl_dictInsert_fresh cs [] (by rw [List.nil_append]; exact hn1)]
  rw [List.nil_append]
  rw [loadUpcoming_map ups [] hud]
  rw [foldl_dictInsert_fresh ups [] (by rw [List.nil_append]; exact hn2)]
  rw [List.nil_append]
  cases nrd with
  | none => rfl
  | some d =>
    dsimp only [Option.map]
    obtain ⟨hv, hy1, hy2⟩ := hrd d rfl
    rw [parseYMD_formatDate hv hy1 hy2]

theorem state_serialize_roundtrip_witness :
    DailiesState.deserialize
      (DailiesState.serialize
        ⟨[(0, Chore.mk "dishes" (some 2) (some "d") none 0 none 42),
          (1, Chore.mk "sign up" none none none 0 (some ⟨2025, 7, 1⟩) 7)],
         [(0, ⟨2025, 6, 2⟩), (1, ⟨2025, 7, 1⟩)], 2, some ⟨2025, 6, 2⟩⟩)
      = some ⟨[(0, Chore.mk "dishes" (some 2) (some "d") none 0 none 42),
          (1, Chore.mk "sign up" none none none 0 (some ⟨2025, 7, 1⟩) 7)],
         [(0, ⟨2025, 6, 2⟩), (1, ⟨2025, 7, 1⟩)], 2, some ⟨2025, 6, 2⟩⟩ :=
  state_serialize_roundtrip _ (by decide) (by decide)
    (by decide) (by decide) (by decide)

end Dailies
